import Mathlib

/-!
Verification of the watermark-removal core of `gemini-watermark-remover`.

The Go package `watermark` is shallowly embedded below:

* `image.RGBA` buffers become `RGBAImage`: a width, a height, and a pixel
  function; `RGBAImage.at` and `RGBAImage.setRGBA` mirror the bounds-checked
  accessors `(*image.RGBA).At` and `(*image.RGBA).SetRGBA` (out-of-bounds
  reads yield the zero color, out-of-bounds writes are no-ops).
* `float64` / `float32` arithmetic of the engine is carried out over `ℚ`;
  the Go conversion `uint8(v)` of a value already clamped into `[0,255]`
  is truncation, embedded as `Int.floor` followed by `Int.toNat`.
* Go `int` is embedded as `ℤ`.
* the imperative pixel loop of `Engine.RemoveWatermark` becomes a fold over
  the loop's `(row, col)` iteration sequence, threading a state that holds
  both the source buffer and the result buffer, so that the "the input is
  never mutated" contract is a statement about the embedding and not an
  artifact of it.
-/

namespace watermark

/-- One pixel of an `image.RGBA` buffer: four 8-bit channels (stored as
naturals; validity `≤ 255` is tracked by `RGBAImage.Valid`). -/
structure RGBAPixel where
  r : ℕ
  g : ℕ
  b : ℕ
  a : ℕ
  deriving DecidableEq, Repr

/-- The zero color returned by `(*image.RGBA).At` outside the bounds. -/
def zeroPixel : RGBAPixel := ⟨0, 0, 0, 0⟩

/-- An `image.RGBA` buffer with origin `(0,0)`: dimensions plus pixel data. -/
structure RGBAImage where
  width : ℕ
  height : ℕ
  pix : ℕ → ℕ → RGBAPixel

/-- `(*image.RGBA).At`: the stored pixel inside the bounds, zero outside. -/
def RGBAImage.at (img : RGBAImage) (x y : ℕ) : RGBAPixel :=
  if x < img.width ∧ y < img.height then img.pix x y else zeroPixel

/-- `(*image.RGBA).SetRGBA`: writes the pixel if `(x, y)` is inside the
bounds and is a no-op otherwise. -/
def RGBAImage.setRGBA (img : RGBAImage) (x y : ℕ) (p : RGBAPixel) : RGBAImage :=
  if x < img.width ∧ y < img.height then
    { img with pix := fun i j => if i = x ∧ j = y then p else img.pix i j }
  else img

/-- An image is 8-bit valid when every in-bounds pixel has all four
channels `≤ 255` (the invariant `image.RGBA` maintains by construction). -/
def RGBAImage.Valid (img : RGBAImage) : Prop :=
  ∀ x, x < img.width → ∀ y, y < img.height →
    (img.pix x y).r ≤ 255 ∧ (img.pix x y).g ≤ 255 ∧
    (img.pix x y).b ≤ 255 ∧ (img.pix x y).a ≤ 255

instance (img : RGBAImage) : Decidable img.Valid := by
  unfold RGBAImage.Valid; infer_instance

/-- `AlphaThreshold = 0.002`: the minimum alpha value to process. -/
def AlphaThreshold : ℚ := 2 / 1000

/-- `MaxAlpha = 0.99`: the maximum alpha value allowed during processing. -/
def MaxAlpha : ℚ := 99 / 100

/-- `LogoValue = 255.0`: the color value of the white watermark logo. -/
def LogoValue : ℚ := 255

/-- `clamp` from `engine.go`: restrict a value to the range `[min, max]`. -/
def clamp (value mn mx : ℚ) : ℚ :=
  if value < mn then mn
  else if value > mx then mx
  else value

/-- `WatermarkConfig`: watermark size and margin, in pixels (Go `int`). -/
structure WatermarkConfig where
  size : ℤ
  margin : ℤ
  deriving DecidableEq, Repr

/-- `image.Rectangle`, flattened to its four coordinates. -/
structure Rectangle where
  minX : ℤ
  minY : ℤ
  maxX : ℤ
  maxY : ℤ
  deriving DecidableEq, Repr

/-- `image.Rect(x0, y0, x1, y1)`: swaps coordinates if given out of order,
exactly as the Go standard library does. -/
def imageRect (x0 y0 x1 y1 : ℤ) : Rectangle where
  minX := if x1 < x0 then x1 else x0
  minY := if y1 < y0 then y1 else y0
  maxX := if x1 < x0 then x0 else x1
  maxY := if y1 < y0 then y0 else y1

/-- `DetectConfig` from `engine.go`: 96/64 when both dimensions exceed
1024, otherwise 48/32. -/
def DetectConfig (width height : ℤ) : WatermarkConfig :=
  if width > 1024 ∧ height > 1024 then ⟨96, 64⟩ else ⟨48, 32⟩

/-- `CalculatePosition` from `engine.go`: bottom-right placement, offset by
the margin from each edge. -/
def CalculatePosition (imgWidth imgHeight : ℤ) (config : WatermarkConfig) : Rectangle :=
  let x := imgWidth - config.margin - config.size
  let y := imgHeight - config.margin - config.size
  imageRect x y (x + config.size) (y + config.size)

/-- `GetWatermarkInfo` from `engine.go`. -/
def GetWatermarkInfo (width height : ℤ) : WatermarkConfig × Rectangle :=
  let config := DetectConfig width height
  (config, CalculatePosition width height config)

/-- The configuration `RemoveWatermark` detects for an image. -/
def imgConfig (img : RGBAImage) : WatermarkConfig :=
  DetectConfig (img.width : ℤ) (img.height : ℤ)

/-- The watermark rectangle `RemoveWatermark` computes for an image. -/
def imgPosition (img : RGBAImage) : Rectangle :=
  CalculatePosition (img.width : ℤ) (img.height : ℤ) (imgConfig img)

/-- The per-pixel computation of `CalculateAlphaMap`:
`max(R, G, B) / 255` (the running-maximum of the three channels in the
source collapses to `max`). -/
def pixelAlpha (p : RGBAPixel) : ℚ :=
  (↑(max (max p.r p.g) p.b) : ℚ) / 255

/-- One row of the alpha map, scanned left to right (the inner `x` loop of
`CalculateAlphaMap`). -/
def alphaRow (img : RGBAImage) (y : ℕ) : List ℚ :=
  (List.range img.width).map (fun x => pixelAlpha (img.at x y))

/-- `CalculateAlphaMap` from `alphamap.go`: one normalized alpha value per
pixel, row-major (the outer `y` loop concatenates the rows, matching the
flat array indexed by `y*width + x`). -/
def CalculateAlphaMap (img : RGBAImage) : List ℚ :=
  ((List.range img.height).map (alphaRow img)).flatten

/-- `Engine`: the two precomputed alpha maps. -/
structure Engine where
  alphaMap48 : List ℚ
  alphaMap96 : List ℚ

/-- The arithmetic of the body of the pixel loop of `RemoveWatermark`:
clamp the alpha to `MaxAlpha`, reverse-blend each color channel against the
white logo, clamp into `[0, 255]`, truncate to `uint8`; the transparency
channel is carried over from the input pixel. -/
def blendPixel (alpha : ℚ) (p : RGBAPixel) : RGBAPixel :=
  let alphaC := if alpha > MaxAlpha then MaxAlpha else alpha
  let oneMinusAlpha := 1 - alphaC
  let originalR := clamp (((p.r : ℚ) - alphaC * LogoValue) / oneMinusAlpha) 0 255
  let originalG := clamp (((p.g : ℚ) - alphaC * LogoValue) / oneMinusAlpha) 0 255
  let originalB := clamp (((p.b : ℚ) - alphaC * LogoValue) / oneMinusAlpha) 0 255
  ⟨(⌊originalR⌋).toNat, (⌊originalG⌋).toNat, (⌊originalB⌋).toNat, p.a⟩

/-- One iteration of the pixel loop of `RemoveWatermark`: skip when the
target coordinate is out of bounds, skip when the alpha is below
`AlphaThreshold`, otherwise overwrite the pixel with its reverse blend. -/
def processPixel (alphaMap : List ℚ) (size : ℕ) (posX posY width height : ℤ)
    (result : RGBAImage) (row col : ℕ) : RGBAImage :=
  if posX + (col : ℤ) < 0 ∨ posY + (row : ℤ) < 0 ∨
      posX + (col : ℤ) ≥ width ∨ posY + (row : ℤ) ≥ height then result
  else if alphaMap.getD (row * size + col) 0 < AlphaThreshold then result
  else result.setRGBA (posX + (col : ℤ)).toNat (posY + (row : ℤ)).toNat
    (blendPixel (alphaMap.getD (row * size + col) 0)
      (result.at (posX + (col : ℤ)).toNat (posY + (row : ℤ)).toNat))

/-- The loop body lifted to a list fold over `(row, col)` pairs. -/
def runPairs (alphaMap : List ℚ) (size : ℕ) (posX posY width height : ℤ)
    (result : RGBAImage) (pairs : List (ℕ × ℕ)) : RGBAImage :=
  pairs.foldl (fun res p => processPixel alphaMap size posX posY width height res p.1 p.2) result

/-- The iteration sequence of the nested loops of `RemoveWatermark`:
`(row, col)` pairs in row-major order. -/
def watermarkCoords (size : ℕ) : List (ℕ × ℕ) :=
  (List.range size).flatMap (fun row => (List.range size).map (fun col => (row, col)))

/-- The mutable state of `RemoveWatermark`: the caller's source buffer and
the working copy of it. Only `result` is ever written to. -/
structure RWState where
  src : RGBAImage
  result : RGBAImage

/-- `Engine.RemoveWatermark` from `engine.go` as explicit state passing:
allocate a copy of the source, detect configuration and position, select
the alpha map, and run the nested pixel loops on the copy. -/
def RemoveWatermarkRun (e : Engine) (img : RGBAImage) : RWState :=
  let width : ℤ := img.width
  let height : ℤ := img.height
  let config := DetectConfig width height
  let position := CalculatePosition width height config
  let alphaMap := if config.size = 96 then e.alphaMap96 else e.alphaMap48
  (List.range config.size.toNat).foldl (fun s row =>
      (List.range config.size.toNat).foldl (fun s col =>
          { s with result := (processPixel alphaMap config.size.toNat
              position.minX position.minY width height s.result row col) }) s)
    { src := img, result := img }

/-- `Engine.RemoveWatermark`: the returned image. -/
def Engine.RemoveWatermark (e : Engine) (img : RGBAImage) : RGBAImage :=
  (RemoveWatermarkRun e img).result

/-- The alpha map `RemoveWatermark` selects for an image of the given
dimensions. -/
def selectedMap (e : Engine) (img : RGBAImage) : List ℚ :=
  if (DetectConfig (img.width : ℤ) (img.height : ℤ)).size = 96 then e.alphaMap96
  else e.alphaMap48

/-- `LoadReferenceImage` from `doc.go`, abstracted over the PNG decoder and
the two embedded byte blobs (the decoder and the assets live outside the
package): `case 96` selects the 96px asset, `case 48` falls through to the
`default` branch, which selects the 48px asset. -/
def LoadReferenceImage (decode : List ℕ → Except String RGBAImage)
    (bg48PNG bg96PNG : List ℕ) (size : ℤ) : Except String RGBAImage :=
  let data := if size = 96 then bg96PNG else bg48PNG
  decode data

/-- Rounding to the nearest integer, for building synthetic 8-bit images. -/
def roundU8 (q : ℚ) : ℕ := (⌊q + 1 / 2⌋).toNat

/-- The selected alpha map's entry for image pixel `(x, y)`, read at the
pixel's row-major offset inside the detected rectangle. -/
def regionAlphaAt (e : Engine) (img : RGBAImage) (x y : ℕ) : ℚ :=
  (selectedMap e img).getD
    (((y : ℤ) - (imgPosition img).minY).toNat * (imgConfig img).size.toNat +
      ((x : ℤ) - (imgPosition img).minX).toNat) 0

/-- Modelled from the spec: the repository contains no forward-compositing
function (the round-trip law's synthetic-image builder is missing from the
sources), so it is built here from the spec's formula
`watermarked = alpha*255 + (1-alpha)*original`: every pixel of the detected
watermark rectangle is composited against the engine's selected alpha map,
each channel rounded to the nearest 8-bit value; the transparency channel
and all pixels outside the rectangle are untouched. -/
def compositeWatermark (e : Engine) (img : RGBAImage) : RGBAImage :=
  { width := img.width, height := img.height,
    pix := fun x y =>
      if (imgPosition img).minX ≤ (x : ℤ) ∧
          (x : ℤ) < (imgPosition img).minX + (imgConfig img).size ∧
          (imgPosition img).minY ≤ (y : ℤ) ∧
          (y : ℤ) < (imgPosition img).minY + (imgConfig img).size then
        ⟨roundU8 (regionAlphaAt e img x y * 255 +
            (1 - regionAlphaAt e img x y) * ((img.pix x y).r : ℚ)),
         roundU8 (regionAlphaAt e img x y * 255 +
            (1 - regionAlphaAt e img x y) * ((img.pix x y).g : ℚ)),
         roundU8 (regionAlphaAt e img x y * 255 +
            (1 - regionAlphaAt e img x y) * ((img.pix x y).b : ℚ)),
         (img.pix x y).a⟩
      else img.pix x y }

/-- The alpha value governing a given image pixel: the selected map's entry
at the pixel's offset inside the detected rectangle, `0` outside it. -/
def regionAlpha (e : Engine) (img : RGBAImage) (x y : ℕ) : ℚ :=
  if (imgPosition img).minX ≤ (x : ℤ) ∧
      (x : ℤ) < (imgPosition img).minX + (imgConfig img).size ∧
      (imgPosition img).minY ≤ (y : ℤ) ∧
      (y : ℤ) < (imgPosition img).minY + (imgConfig img).size then
    regionAlphaAt e img x y
  else 0

/-- The worst-case deviation the 8-bit rounding of the composite can cause
after reverse blending against alpha value `q`. -/
def roundTol (q : ℚ) : ℤ := ⌈1 / (2 * (1 - q))⌉

/-- A concrete 100×100 mid-gray image used to instantiate theorems. -/
def sampleImage : RGBAImage := ⟨100, 100, fun _ _ => ⟨101, 101, 101, 255⟩⟩

/-- A concrete engine whose 48px alpha map holds a single `1/2` entry. -/
def sampleEngine : Engine := ⟨[1 / 2], []⟩

/-! ### Basic facts about the image accessors -/

theorem setRGBA_width (img : RGBAImage) (x y : ℕ) (p : RGBAPixel) :
    (img.setRGBA x y p).width = img.width := by
  unfold RGBAImage.setRGBA; split <;> rfl

theorem setRGBA_height (img : RGBAImage) (x y : ℕ) (p : RGBAPixel) :
    (img.setRGBA x y p).height = img.height := by
  unfold RGBAImage.setRGBA; split <;> rfl

theorem at_setRGBA_self (img : RGBAImage) (x y : ℕ) (p : RGBAPixel)
    (hx : x < img.width) (hy : y < img.height) :
    (img.setRGBA x y p).at x y = p := by
  unfold RGBAImage.setRGBA RGBAImage.at
  simp [hx, hy]

theorem at_setRGBA_ne (img : RGBAImage) (x y x0 y0 : ℕ) (p : RGBAPixel)
    (h : x0 ≠ x ∨ y0 ≠ y) :
    (img.setRGBA x y p).at x0 y0 = img.at x0 y0 := by
  unfold RGBAImage.setRGBA RGBAImage.at
  split
  · simp only
    split
    · have : ¬(x0 = x ∧ y0 = y) := by tauto
      simp [this]
    · rfl
  · rfl

theorem at_valid (img : RGBAImage) (hv : img.Valid) (x y : ℕ) :
    (img.at x y).r ≤ 255 ∧ (img.at x y).g ≤ 255 ∧
    (img.at x y).b ≤ 255 ∧ (img.at x y).a ≤ 255 := by
  unfold RGBAImage.at
  split
  · rename_i h; exact hv x h.1 y h.2
  · simp [zeroPixel]

/-! ### Facts about `clamp` and `blendPixel` -/

theorem clamp_mem (value mn mx : ℚ) (h : mn ≤ mx) :
    mn ≤ clamp value mn mx ∧ clamp value mn mx ≤ mx := by
  unfold clamp
  split
  · exact ⟨le_refl mn, h⟩
  · split
    · exact ⟨h, le_refl mx⟩
    · constructor <;> linarith [not_lt.mp (by assumption : ¬value < mn)]

/-- Clamping into an interval containing `c` never moves the value further
from `c`. -/
theorem clamp_dist (value mn mx c : ℚ) (h1 : mn ≤ c) (h2 : c ≤ mx) :
    |clamp value mn mx - c| ≤ |value - c| := by
  unfold clamp
  split
  · rename_i h
    have e1 : |mn - c| = c - mn := by rw [abs_sub_comm]; exact abs_of_nonneg (by linarith)
    have e2 : |value - c| = c - value := by rw [abs_sub_comm]; exact abs_of_nonneg (by linarith)
    rw [e1, e2]; linarith
  · split
    · rename_i h
      have e1 : |mx - c| = mx - c := abs_of_nonneg (by linarith)
      have e2 : |value - c| = value - c := abs_of_nonneg (by linarith)
      rw [e1, e2]; linarith
    · exact le_refl _

/-- The clamped alpha never exceeds `MaxAlpha`, so the reverse-blend
denominator `1 - alpha` is at least `1/100`. -/
theorem oneMinusAlpha_ge (alpha : ℚ) :
    1 / 100 ≤ 1 - (if alpha > MaxAlpha then MaxAlpha else alpha) := by
  unfold MaxAlpha
  split
  · norm_num
  · rename_i h
    rw [not_lt] at h
    linarith

/-- Truncating a value clamped into `[0, 255]` yields a valid channel. -/
theorem floor_clamp_le (value : ℚ) : (⌊clamp value 0 255⌋).toNat ≤ 255 := by
  have h2 := (clamp_mem value 0 255 (by norm_num)).2
  have h3 : ⌊clamp value 0 255⌋ ≤ ⌊(255 : ℚ)⌋ := Int.floor_mono h2
  norm_num at h3
  omega

theorem blendPixel_le_255 (alpha : ℚ) (p : RGBAPixel) :
    (blendPixel alpha p).r ≤ 255 ∧ (blendPixel alpha p).g ≤ 255 ∧
    (blendPixel alpha p).b ≤ 255 := by
  unfold blendPixel
  exact ⟨floor_clamp_le _, floor_clamp_le _, floor_clamp_le _⟩

theorem blendPixel_a (alpha : ℚ) (p : RGBAPixel) :
    (blendPixel alpha p).a = p.a := rfl

/-! ### Facts about `processPixel` -/

theorem processPixel_width (am : List ℚ) (sz : ℕ) (pX pY w h : ℤ)
    (res : RGBAImage) (row col : ℕ) :
    (processPixel am sz pX pY w h res row col).width = res.width := by
  unfold processPixel
  split
  · rfl
  · split
    · rfl
    · exact setRGBA_width ..

theorem processPixel_height (am : List ℚ) (sz : ℕ) (pX pY w h : ℤ)
    (res : RGBAImage) (row col : ℕ) :
    (processPixel am sz pX pY w h res row col).height = res.height := by
  unfold processPixel
  split
  · rfl
  · split
    · rfl
    · exact setRGBA_height ..

/-- A loop iteration whose target is out of the image bounds is a skip. -/
theorem processPixel_oob (am : List ℚ) (sz : ℕ) (pX pY w h : ℤ)
    (res : RGBAImage) (row col : ℕ)
    (hoob : pX + (col : ℤ) < 0 ∨ pY + (row : ℤ) < 0 ∨
      pX + (col : ℤ) ≥ w ∨ pY + (row : ℤ) ≥ h) :
    processPixel am sz pX pY w h res row col = res := by
  unfold processPixel
  split
  · rfl
  · rename_i hno
    exact absurd hoob hno

/-- A loop iteration whose alpha is below the threshold is a skip. -/
theorem processPixel_skip (am : List ℚ) (sz : ℕ) (pX pY w h : ℤ)
    (res : RGBAImage) (row col : ℕ)
    (halpha : am.getD (row * sz + col) 0 < AlphaThreshold) :
    processPixel am sz pX pY w h res row col = res := by
  unfold processPixel
  split
  · rfl
  · simp [halpha]

/-- A loop iteration never changes a pixel other than its own target. -/
theorem processPixel_at_ne (am : List ℚ) (sz : ℕ) (pX pY w h : ℤ)
    (res : RGBAImage) (row col tx ty : ℕ)
    (hne : ¬(pX + (col : ℤ) = (tx : ℤ) ∧ pY + (row : ℤ) = (ty : ℤ))) :
    (processPixel am sz pX pY w h res row col).at tx ty = res.at tx ty := by
  unfold processPixel
  split
  · rfl
  · rename_i hin
    push_neg at hin
    split
    · rfl
    · apply at_setRGBA_ne
      omega

/-! ### Facts about `runPairs` and the iteration sequence -/

theorem runPairs_nil (am : List ℚ) (sz : ℕ) (pX pY w h : ℤ) (res : RGBAImage) :
    runPairs am sz pX pY w h res [] = res := rfl

theorem runPairs_cons (am : List ℚ) (sz : ℕ) (pX pY w h : ℤ) (res : RGBAImage)
    (p : ℕ × ℕ) (L : List (ℕ × ℕ)) :
    runPairs am sz pX pY w h res (p :: L) =
      runPairs am sz pX pY w h (processPixel am sz pX pY w h res p.1 p.2) L := rfl

theorem runPairs_append (am : List ℚ) (sz : ℕ) (pX pY w h : ℤ) (res : RGBAImage)
    (L1 L2 : List (ℕ × ℕ)) :
    runPairs am sz pX pY w h res (L1 ++ L2) =
      runPairs am sz pX pY w h (runPairs am sz pX pY w h res L1) L2 :=
  List.foldl_append ..

theorem runPairs_width (am : List ℚ) (sz : ℕ) (pX pY w h : ℤ) (res : RGBAImage)
    (L : List (ℕ × ℕ)) :
    (runPairs am sz pX pY w h res L).width = res.width := by
  induction L generalizing res with
  | nil => rfl
  | cons p L ih => rw [runPairs_cons, ih, processPixel_width]

theorem runPairs_height (am : List ℚ) (sz : ℕ) (pX pY w h : ℤ) (res : RGBAImage)
    (L : List (ℕ × ℕ)) :
    (runPairs am sz pX pY w h res L).height = res.height := by
  induction L generalizing res with
  | nil => rfl
  | cons p L ih => rw [runPairs_cons, ih, processPixel_height]

/-- Frame property: folding over iterations none of which targets `(tx, ty)`
leaves the pixel `(tx, ty)` untouched. -/
theorem runPairs_at_frame (am : List ℚ) (sz : ℕ) (pX pY w h : ℤ) (res : RGBAImage)
    (L : List (ℕ × ℕ)) (tx ty : ℕ)
    (hL : ∀ p ∈ L, ¬(pX + (p.2 : ℤ) = (tx : ℤ) ∧ pY + (p.1 : ℤ) = (ty : ℤ))) :
    (runPairs am sz pX pY w h res L).at tx ty = res.at tx ty := by
  induction L generalizing res with
  | nil => rfl
  | cons p L ih =>
    rw [runPairs_cons, ih _ (fun q hq => hL q (List.mem_cons_of_mem p hq)),
      processPixel_at_ne _ _ _ _ _ _ _ _ _ _ _ (hL p (List.mem_cons_self p L))]

theorem mem_watermarkCoords (sz : ℕ) (p : ℕ × ℕ) :
    p ∈ watermarkCoords sz ↔ p.1 < sz ∧ p.2 < sz := by
  unfold watermarkCoords
  constructor
  · intro hp
    obtain ⟨row, hrow, hp⟩ := List.mem_flatMap.mp hp
    obtain ⟨col, hcol, rfl⟩ := List.mem_map.mp hp
    exact ⟨List.mem_range.mp hrow, List.mem_range.mp hcol⟩
  · intro ⟨h1, h2⟩
    refine List.mem_flatMap.mpr ⟨p.1, List.mem_range.mpr h1, ?_⟩
    exact List.mem_map.mpr ⟨p.2, List.mem_range.mpr h2, rfl⟩

theorem watermarkCoords_nodup (sz : ℕ) : (watermarkCoords sz).Nodup := by
  unfold watermarkCoords
  refine List.nodup_flatMap.mpr ⟨fun row _ => ?_, ?_⟩
  · exact (List.nodup_range sz).map (fun a b hab => (Prod.mk.injEq ..).mp hab |>.2)
  · refine List.Pairwise.imp ?_ (List.nodup_range sz)
    intro a b hab
    intro p hpa hpb
    obtain ⟨ca, _, rfl⟩ := List.mem_map.mp hpa
    obtain ⟨cb, _, heq⟩ := List.mem_map.mp hpb
    exact hab ((Prod.mk.injEq ..).mp heq).1.symm

/-- Every iteration of the nested loops targets a pixel inside the
rectangle `[pX, pX+sz) × [pY, pY+sz)`. -/
theorem watermarkCoords_target_mem (sz : ℕ) (p : ℕ × ℕ)
    (hp : p ∈ watermarkCoords sz) (pX pY : ℤ) :
    pX ≤ pX + (p.2 : ℤ) ∧ pX + (p.2 : ℤ) < pX + sz ∧
    pY ≤ pY + (p.1 : ℤ) ∧ pY + (p.1 : ℤ) < pY + sz := by
  obtain ⟨h1, h2⟩ := (mem_watermarkCoords sz p).mp hp
  omega

/-! ### Shape of the `RemoveWatermarkRun` fold -/

/-- The inner column loop never touches the `src` component. -/
theorem foldl_inner_src (g : RGBAImage → ℕ → ℕ → RGBAImage) (row : ℕ)
    (cols : List ℕ) (s : RWState) :
    (cols.foldl (fun s col => { s with result := g s.result row col }) s).src = s.src := by
  induction cols generalizing s with
  | nil => rfl
  | cons c cs ih => exact ih _

/-- The outer row loop never touches the `src` component. -/
theorem foldl_outer_src (g : RGBAImage → ℕ → ℕ → RGBAImage)
    (rows cols : List ℕ) (s : RWState) :
    (rows.foldl (fun s row =>
      cols.foldl (fun s col => { s with result := g s.result row col }) s) s).src = s.src := by
  induction rows generalizing s with
  | nil => rfl
  | cons r rs ih => rw [List.foldl_cons, ih, foldl_inner_src]

/-- The `result` component of the inner loop is a plain image fold. -/
theorem foldl_inner_result (g : RGBAImage → ℕ → ℕ → RGBAImage) (row : ℕ)
    (cols : List ℕ) (s : RWState) :
    (cols.foldl (fun s col => { s with result := g s.result row col }) s).result =
      cols.foldl (fun r col => g r row col) s.result := by
  induction cols generalizing s with
  | nil => rfl
  | cons c cs ih => exact ih _

/-- The `result` component of the whole nested loop is a plain image fold. -/
theorem foldl_outer_result (g : RGBAImage → ℕ → ℕ → RGBAImage)
    (rows cols : List ℕ) (s : RWState) :
    (rows.foldl (fun s row =>
      cols.foldl (fun s col => { s with result := g s.result row col }) s) s).result =
      rows.foldl (fun r row => cols.foldl (fun r col => g r row col) r) s.result := by
  induction rows generalizing s with
  | nil => rfl
  | cons r rs ih => rw [List.foldl_cons, ih, foldl_inner_result, List.foldl_cons]

/-- Nested row/column folds over ranges are the flat fold over the
row-major iteration sequence. -/
theorem foldl_nested_eq_flat (g : RGBAImage → ℕ → ℕ → RGBAImage)
    (rows : List ℕ) (sz : ℕ) (res : RGBAImage) :
    rows.foldl (fun r row => (List.range sz).foldl (fun r col => g r row col) r) res =
      (rows.flatMap (fun row => (List.range sz).map (fun col => (row, col)))).foldl
        (fun r p => g r p.1 p.2) res := by
  induction rows generalizing res with
  | nil => rfl
  | cons r rs ih =>
    rw [List.foldl_cons, List.flatMap_cons, List.foldl_append, ih, List.foldl_map]

/-- `RemoveWatermark` is the flat fold of `processPixel` over the row-major
iteration sequence, started on the copy of the input. -/
theorem removeWatermark_eq_runPairs (e : Engine) (img : RGBAImage) :
    e.RemoveWatermark img =
      runPairs (selectedMap e img) (imgConfig img).size.toNat
        (imgPosition img).minX (imgPosition img).minY
        (img.width : ℤ) (img.height : ℤ) img (watermarkCoords (imgConfig img).size.toNat) := by
  unfold Engine.RemoveWatermark RemoveWatermarkRun
  rw [foldl_outer_result, foldl_nested_eq_flat]
  rfl

/-- The source component of the run is returned untouched. -/
theorem removeWatermarkRun_src (e : Engine) (img : RGBAImage) :
    (RemoveWatermarkRun e img).src = img := by
  unfold RemoveWatermarkRun
  rw [foldl_outer_src]

/-- An out-of-bounds `SetRGBA` is a no-op. -/
theorem setRGBA_oob (img : RGBAImage) (x y : ℕ) (p : RGBAPixel)
    (h : ¬(x < img.width ∧ y < img.height)) :
    img.setRGBA x y p = img := by
  unfold RGBAImage.setRGBA
  rw [if_neg h]

/-- Writing a pixel whose transparency agrees with the stored one preserves
the transparency of every pixel. -/
theorem setRGBA_at_a (img : RGBAImage) (x y : ℕ) (p : RGBAPixel)
    (hp : p.a = (img.at x y).a) (x0 y0 : ℕ) :
    ((img.setRGBA x y p).at x0 y0).a = (img.at x0 y0).a := by
  by_cases hxy : x0 = x ∧ y0 = y
  · obtain ⟨rfl, rfl⟩ := hxy
    by_cases hb : x0 < img.width ∧ y0 < img.height
    · rw [at_setRGBA_self _ _ _ _ hb.1 hb.2, hp]
    · rw [setRGBA_oob _ _ _ _ hb]
  · rw [at_setRGBA_ne]
    tauto

/-- The loop body when the pixel is actually processed. -/
theorem processPixel_write (am : List ℚ) (sz : ℕ) (pX pY w h : ℤ)
    (res : RGBAImage) (row col : ℕ)
    (h0x : 0 ≤ pX + (col : ℤ)) (h0y : 0 ≤ pY + (row : ℤ))
    (hxw : pX + (col : ℤ) < w) (hyh : pY + (row : ℤ) < h)
    (halpha : ¬(am.getD (row * sz + col) 0 < AlphaThreshold)) :
    processPixel am sz pX pY w h res row col =
      res.setRGBA (pX + (col : ℤ)).toNat (pY + (row : ℤ)).toNat
        (blendPixel (am.getD (row * sz + col) 0)
          (res.at (pX + (col : ℤ)).toNat (pY + (row : ℤ)).toNat)) := by
  unfold processPixel
  rw [if_neg (by omega), if_neg halpha]

/-- The value of the output at the target pixel of iteration `(row, col)`:
untouched below the alpha threshold, reverse-blended from the pre-loop
pixel otherwise. -/
theorem runPairs_at_target (am : List ℚ) (sz : ℕ) (pX pY w h : ℤ)
    (res : RGBAImage) (row col : ℕ)
    (hrow : row < sz) (hcol : col < sz)
    (hw : w = (res.width : ℤ)) (hh : h = (res.height : ℤ))
    (h0x : 0 ≤ pX + (col : ℤ)) (h0y : 0 ≤ pY + (row : ℤ))
    (hxw : pX + (col : ℤ) < w) (hyh : pY + (row : ℤ) < h) :
    (runPairs am sz pX pY w h res (watermarkCoords sz)).at
        (pX + (col : ℤ)).toNat (pY + (row : ℤ)).toNat =
      if am.getD (row * sz + col) 0 < AlphaThreshold then
        res.at (pX + (col : ℤ)).toNat (pY + (row : ℤ)).toNat
      else
        blendPixel (am.getD (row * sz + col) 0)
          (res.at (pX + (col : ℤ)).toNat (pY + (row : ℤ)).toNat) := by
  have hmem : (row, col) ∈ watermarkCoords sz := (mem_watermarkCoords sz _).mpr ⟨hrow, hcol⟩
  obtain ⟨A, B, hAB⟩ := List.append_of_mem hmem
  have hnd := watermarkCoords_nodup sz
  rw [hAB] at hnd
  obtain ⟨hndA, hndCB, hdisj⟩ := List.nodup_append.mp hnd
  have hnotB : (row, col) ∉ B := (List.nodup_cons.mp hndCB).1
  have hnotA : (row, col) ∉ A := fun hmA => hdisj hmA (List.mem_cons_self _ _)
  have frame : ∀ S : List (ℕ × ℕ), (row, col) ∉ S → (∀ p ∈ S, p ∈ watermarkCoords sz) →
      ∀ p ∈ S, ¬(pX + (p.2 : ℤ) = ((pX + (col : ℤ)).toNat : ℤ) ∧
        pY + (p.1 : ℤ) = ((pY + (row : ℤ)).toNat : ℤ)) := by
    intro S hS _ p hp hc
    have h2 : p.2 = col := by omega
    have h1 : p.1 = row := by omega
    exact hS (by rw [← h1, ← h2] at hS ⊢; exact hp)
  have frameA := frame A hnotA (fun p hp => hAB ▸ List.mem_append_left _ hp)
  have frameB := frame B hnotB (fun p hp => hAB ▸ List.mem_append_right _ (List.mem_cons_of_mem _ hp))
  rw [hAB, runPairs_append, runPairs_cons, runPairs_at_frame _ _ _ _ _ _ _ _ _ _ frameB]
  have hwidthA := runPairs_width am sz pX pY w h res A
  have hheightA := runPairs_height am sz pX pY w h res A
  by_cases halpha : am.getD (row * sz + col) 0 < AlphaThreshold
  · rw [processPixel_skip _ _ _ _ _ _ _ _ _ halpha,
      runPairs_at_frame _ _ _ _ _ _ _ _ _ _ frameA, if_pos halpha]
  · rw [processPixel_write _ _ _ _ _ _ _ _ _ h0x h0y hxw hyh halpha,
      at_setRGBA_self _ _ _ _ (by omega) (by omega),
      runPairs_at_frame _ _ _ _ _ _ _ _ _ _ frameA, if_neg halpha]

/-- Every iteration preserves the transparency channel of every pixel. -/
theorem processPixel_at_a (am : List ℚ) (sz : ℕ) (pX pY w h : ℤ)
    (res : RGBAImage) (row col tx ty : ℕ) :
    ((processPixel am sz pX pY w h res row col).at tx ty).a = (res.at tx ty).a := by
  unfold processPixel
  split
  · rfl
  · split
    · rfl
    · exact setRGBA_at_a _ _ _ _ (blendPixel_a _ _) _ _

theorem runPairs_at_a (am : List ℚ) (sz : ℕ) (pX pY w h : ℤ)
    (res : RGBAImage) (L : List (ℕ × ℕ)) (tx ty : ℕ) :
    ((runPairs am sz pX pY w h res L).at tx ty).a = (res.at tx ty).a := by
  induction L generalizing res with
  | nil => rfl
  | cons p L ih => rw [runPairs_cons, ih, processPixel_at_a]

/-- Writing a valid pixel preserves 8-bit validity. -/
theorem setRGBA_valid (img : RGBAImage) (hv : img.Valid) (x y : ℕ) (p : RGBAPixel)
    (hp : p.r ≤ 255 ∧ p.g ≤ 255 ∧ p.b ≤ 255 ∧ p.a ≤ 255) :
    (img.setRGBA x y p).Valid := by
  unfold RGBAImage.setRGBA
  split
  · intro i hi j hj
    simp only
    split
    · exact hp
    · exact hv i hi j hj
  · exact hv

theorem processPixel_valid (am : List ℚ) (sz : ℕ) (pX pY w h : ℤ)
    (res : RGBAImage) (hv : res.Valid) (row col : ℕ) :
    (processPixel am sz pX pY w h res row col).Valid := by
  unfold processPixel
  split
  · exact hv
  · split
    · exact hv
    · refine setRGBA_valid _ hv _ _ _ ?_
      obtain ⟨h1, h2, h3⟩ := blendPixel_le_255 (am.getD (row * sz + col) 0)
        (res.at (pX + (col : ℤ)).toNat (pY + (row : ℤ)).toNat)
      refine ⟨h1, h2, h3, ?_⟩
      rw [blendPixel_a]
      exact (at_valid _ hv _ _).2.2.2

theorem runPairs_valid (am : List ℚ) (sz : ℕ) (pX pY w h : ℤ)
    (res : RGBAImage) (hv : res.Valid) (L : List (ℕ × ℕ)) :
    (runPairs am sz pX pY w h res L).Valid := by
  induction L generalizing res with
  | nil => exact hv
  | cons p L ih => exact ih _ (processPixel_valid _ _ _ _ _ _ _ hv _ _)

/-! ### Geometry facts -/

theorem imgConfig_cases (img : RGBAImage) :
    imgConfig img = ⟨96, 64⟩ ∨ imgConfig img = ⟨48, 32⟩ := by
  unfold imgConfig DetectConfig
  split
  · exact Or.inl rfl
  · exact Or.inr rfl

theorem imgConfig_size_nonneg (img : RGBAImage) : 0 ≤ (imgConfig img).size := by
  rcases imgConfig_cases img with h | h <;> rw [h] <;> decide

/-- `CalculatePosition` in closed form, for any configuration with a
nonnegative size (so that `image.Rect` performs no swap). -/
theorem calculatePosition_eq (w h : ℤ) (c : WatermarkConfig) (hc : 0 ≤ c.size) :
    CalculatePosition w h c =
      ⟨w - c.margin - c.size, h - c.margin - c.size, w - c.margin, h - c.margin⟩ := by
  simp only [CalculatePosition, imageRect]
  simp only [Rectangle.mk.injEq]
  refine ⟨?_, ?_, ?_, ?_⟩ <;> rw [if_neg (by omega)] <;> omega

theorem imgPosition_eq (img : RGBAImage) :
    imgPosition img =
      ⟨(img.width : ℤ) - (imgConfig img).margin - (imgConfig img).size,
       (img.height : ℤ) - (imgConfig img).margin - (imgConfig img).size,
       (img.width : ℤ) - (imgConfig img).margin,
       (img.height : ℤ) - (imgConfig img).margin⟩ :=
  calculatePosition_eq _ _ _ (imgConfig_size_nonneg img)

theorem imgPosition_maxX (img : RGBAImage) :
    (imgPosition img).maxX = (imgPosition img).minX + (imgConfig img).size := by
  rw [imgPosition_eq]; simp only; omega

theorem imgPosition_maxY (img : RGBAImage) :
    (imgPosition img).maxY = (imgPosition img).minY + (imgConfig img).size := by
  rw [imgPosition_eq]; simp only; omega

theorem imgConfig_size_toNat (img : RGBAImage) :
    ((imgConfig img).size.toNat : ℤ) = (imgConfig img).size := by
  rcases imgConfig_cases img with h | h <;> rw [h] <;> decide

/-! ### Facts about `CalculateAlphaMap` -/

theorem alphaRow_length (img : RGBAImage) (y : ℕ) :
    (alphaRow img y).length = img.width := by
  unfold alphaRow
  rw [List.length_map, List.length_range]

theorem flatten_rows_length (g : ℕ → List ℚ) (w : ℕ) (hg : ∀ y, (g y).length = w)
    (h : ℕ) : (((List.range h).map g).flatten).length = h * w := by
  induction h with
  | zero => simp
  | succ n ih =>
    rw [List.range_succ, List.map_append, List.flatten_append, List.length_append, ih]
    simp only [List.map_cons, List.map_nil, List.flatten_cons, List.flatten_nil,
      List.append_nil, hg]
    ring

theorem flatten_rows_getD (g : ℕ → List ℚ) (w : ℕ) (hg : ∀ y, (g y).length = w)
    (h y x : ℕ) (hy : y < h) (hx : x < w) :
    (((List.range h).map g).flatten).getD (y * w + x) 0 = (g y).getD x 0 := by
  induction h with
  | zero => omega
  | succ n ih =>
    rw [List.range_succ, List.map_append, List.flatten_append]
    by_cases hyn : y < n
    · rw [List.getD_append]
      · exact ih hyn
      · rw [flatten_rows_length g w hg]
        calc y * w + x < y * w + w := by omega
        _ = (y + 1) * w := by ring
        _ ≤ n * w := Nat.mul_le_mul_right w (by omega)
    · have hyn2 : y = n := by omega
      subst hyn2
      have hlen : (((List.range y).map g).flatten).length = y * w :=
        flatten_rows_length g w hg y
      rw [List.getD_append_right _ _ _ _ (by omega)]
      simp only [List.map_cons, List.map_nil, List.flatten_cons, List.flatten_nil,
        List.append_nil, hlen]
      congr 1
      omega

theorem calculateAlphaMap_length (img : RGBAImage) :
    (CalculateAlphaMap img).length = img.width * img.height := by
  unfold CalculateAlphaMap
  rw [flatten_rows_length (alphaRow img) img.width (alphaRow_length img) img.height]
  exact Nat.mul_comm ..

theorem calculateAlphaMap_getD (img : RGBAImage) (x y : ℕ)
    (hx : x < img.width) (hy : y < img.height) :
    (CalculateAlphaMap img).getD (y * img.width + x) 0 = pixelAlpha (img.at x y) := by
  unfold CalculateAlphaMap
  rw [flatten_rows_getD (alphaRow img) img.width (alphaRow_length img) img.height y x hy hx]
  unfold alphaRow
  rw [List.getD_eq_getElem _ _ (by simpa using hx)]
  simp

theorem mem_calculateAlphaMap (img : RGBAImage) (q : ℚ)
    (hq : q ∈ CalculateAlphaMap img) :
    ∃ x y, x < img.width ∧ y < img.height ∧ q = pixelAlpha (img.at x y) := by
  unfold CalculateAlphaMap at hq
  obtain ⟨l, hl, hql⟩ := List.mem_flatten.mp hq
  obtain ⟨y, hy, rfl⟩ := List.mem_map.mp hl
  unfold alphaRow at hql
  obtain ⟨x, hx, rfl⟩ := List.mem_map.mp hql
  exact ⟨x, y, List.mem_range.mp hx, List.mem_range.mp hy, rfl⟩

theorem pixelAlpha_nonneg (p : RGBAPixel) : 0 ≤ pixelAlpha p := by
  unfold pixelAlpha
  positivity

theorem pixelAlpha_le_one (p : RGBAPixel)
    (h : p.r ≤ 255 ∧ p.g ≤ 255 ∧ p.b ≤ 255) : pixelAlpha p ≤ 1 := by
  unfold pixelAlpha
  rw [div_le_one (by norm_num)]
  have hm : max (max p.r p.g) p.b ≤ 255 := by omega
  exact_mod_cast hm

/-! ### Round-trip arithmetic -/

theorem roundTol_ge_one (q : ℚ) (h1 : q < 1) : 1 ≤ roundTol q := by
  unfold roundTol
  have hd : 0 < 1 - q := by linarith
  have hpos : 0 < 1 / (2 * (1 - q)) := by positivity
  have := Int.ceil_pos.mpr hpos
  omega

theorem roundU8_intCast (q : ℚ) (h : 0 ≤ q) :
    ((roundU8 q : ℕ) : ℤ) = ⌊q + 1 / 2⌋ := by
  unfold roundU8
  rw [Int.toNat_of_nonneg]
  exact Int.floor_nonneg.mpr (by linarith)

/-- Reverse-blending the rounded forward composite recovers the original
channel up to the rounding tolerance, for any alpha at most `MaxAlpha`. -/
theorem blend_channel_roundtrip (c : ℕ) (hc : c ≤ 255) (α : ℚ)
    (h0 : 0 ≤ α) (h1 : α ≤ MaxAlpha) :
    |((⌊clamp ((((roundU8 (α * 255 + (1 - α) * (c : ℚ)) : ℕ) : ℚ) - α * LogoValue) /
          (1 - α)) 0 255⌋).toNat : ℤ) - (c : ℤ)| ≤ roundTol α := by
  unfold MaxAlpha at h1
  have hcQ : (c : ℚ) ≤ 255 := by exact_mod_cast hc
  have hc0 : (0 : ℚ) ≤ c := Nat.cast_nonneg c
  have hd : (0 : ℚ) < 1 - α := by linarith
  set v : ℚ := α * 255 + (1 - α) * (c : ℚ) with hv
  have hvc : (c : ℚ) ≤ v := by nlinarith
  have hv255 : v ≤ 255 := by nlinarith
  have hv0 : (0 : ℚ) ≤ v := le_trans hc0 hvc
  have hcqZ : ((roundU8 v : ℕ) : ℤ) = ⌊v + 1 / 2⌋ := roundU8_intCast v hv0
  set cq : ℚ := ((roundU8 v : ℕ) : ℚ) with hcq
  have hcqQ : cq = ((⌊v + 1 / 2⌋ : ℤ) : ℚ) := by rw [hcq]; exact_mod_cast hcqZ
  have h_up : cq ≤ v + 1 / 2 := by rw [hcqQ]; exact Int.floor_le _
  have h_lo : v - 1 / 2 < cq := by
    have h2 := Int.lt_floor_add_one (v + 1 / 2)
    rw [hcqQ]
    push_cast at h2
    linarith
  set r : ℚ := (cq - α * LogoValue) / (1 - α) with hr
  have hrc : r - c = (cq - v) / (1 - α) := by
    rw [hr, hv]
    unfold LogoValue
    field_simp
    ring
  have habsd : |cq - v| ≤ 1 / 2 := abs_le.mpr ⟨by linarith, by linarith⟩
  have habs : |r - (c : ℚ)| ≤ 1 / (2 * (1 - α)) := by
    rw [hrc, abs_div, abs_of_pos hd]
    calc |cq - v| / (1 - α) ≤ (1 / 2) / (1 - α) := by gcongr
    _ = 1 / (2 * (1 - α)) := div_div 1 2 (1 - α)
  have hcl : |clamp r 0 255 - (c : ℚ)| ≤ 1 / (2 * (1 - α)) :=
    le_trans (clamp_dist r 0 255 c hc0 hcQ) habs
  set e : ℚ := 1 / (2 * (1 - α)) with he
  obtain ⟨hcl1, hcl2⟩ := abs_le.mp hcl
  set out : ℤ := ⌊clamp r 0 255⌋ with hout
  have hout0 : 0 ≤ out := Int.floor_nonneg.mpr (clamp_mem r 0 255 (by norm_num)).1
  have houtNat : ((out.toNat : ℕ) : ℤ) = out := Int.toNat_of_nonneg hout0
  have hub : out ≤ (c : ℤ) + ⌈e⌉ := by
    have h3 : out ≤ ⌊((c : ℤ) : ℚ) + e⌋ := Int.floor_mono (by push_cast; linarith)
    rw [Int.floor_int_add] at h3
    have := Int.floor_le_ceil e
    omega
  have hlb : (c : ℤ) - ⌈e⌉ ≤ out := by
    have h3 : ⌊((c : ℤ) : ℚ) + -e⌋ ≤ out := Int.floor_mono (by push_cast; linarith)
    rw [Int.floor_int_add, Int.floor_neg] at h3
    omega
  have : |out - (c : ℤ)| ≤ ⌈e⌉ := abs_le.mpr ⟨by omega, by omega⟩
  unfold roundTol
  rw [houtNat]
  exact this

/-- Below the alpha threshold the engine skips the pixel, and the rounded
forward composite itself is within one of the original channel. -/
theorem skip_channel_roundtrip (c : ℕ) (hc : c ≤ 255) (α : ℚ)
    (h0 : 0 ≤ α) (hthr : α < AlphaThreshold) :
    |((roundU8 (α * 255 + (1 - α) * (c : ℚ)) : ℕ) : ℤ) - (c : ℤ)| ≤ 1 := by
  unfold AlphaThreshold at hthr
  have hcQ : (c : ℚ) ≤ 255 := by exact_mod_cast hc
  have hc0 : (0 : ℚ) ≤ c := Nat.cast_nonneg c
  set v : ℚ := α * 255 + (1 - α) * (c : ℚ) with hv
  have hvc : (c : ℚ) ≤ v := by nlinarith
  have hv51 : v ≤ (c : ℚ) + 51 / 100 := by nlinarith
  have hv0 : (0 : ℚ) ≤ v := le_trans hc0 hvc
  have hcqZ : ((roundU8 v : ℕ) : ℤ) = ⌊v + 1 / 2⌋ := roundU8_intCast v hv0
  have hlb : (c : ℤ) ≤ ⌊v + 1 / 2⌋ := by
    have h3 : ⌊((c : ℤ) : ℚ) + 1 / 2⌋ ≤ ⌊v + 1 / 2⌋ := Int.floor_mono (by push_cast; linarith)
    rw [Int.floor_int_add] at h3
    norm_num at h3
    exact h3
  have hub : ⌊v + 1 / 2⌋ ≤ (c : ℤ) + 1 := by
    have h3 : ⌊v + 1 / 2⌋ ≤ ⌊((c : ℤ) : ℚ) + 151 / 100⌋ := Int.floor_mono (by push_cast; linarith)
    rw [Int.floor_int_add] at h3
    norm_num at h3
    omega
  rw [hcqZ]
  rw [abs_le]
  omega

/-! ### Image-level consequences for `RemoveWatermark` -/

theorem removeWatermark_width (e : Engine) (img : RGBAImage) :
    (e.RemoveWatermark img).width = img.width := by
  rw [removeWatermark_eq_runPairs]
  exact runPairs_width ..

theorem removeWatermark_height (e : Engine) (img : RGBAImage) :
    (e.RemoveWatermark img).height = img.height := by
  rw [removeWatermark_eq_runPairs]
  exact runPairs_height ..

/-- Pixels strictly outside the watermark rectangle are returned untouched. -/
theorem removeWatermark_at_outside (e : Engine) (img : RGBAImage) (x y : ℕ)
    (h : ¬((imgPosition img).minX ≤ (x : ℤ) ∧
        (x : ℤ) < (imgPosition img).minX + (imgConfig img).size ∧
        (imgPosition img).minY ≤ (y : ℤ) ∧
        (y : ℤ) < (imgPosition img).minY + (imgConfig img).size)) :
    (e.RemoveWatermark img).at x y = img.at x y := by
  rw [removeWatermark_eq_runPairs]
  apply runPairs_at_frame
  intro p hp hc
  obtain ⟨h1, h2, h3, h4⟩ := watermarkCoords_target_mem _ p hp
    (imgPosition img).minX (imgPosition img).minY
  have hsz := imgConfig_size_toNat img
  exact h (by omega)

/-- The value of the output at the target pixel of iteration `(row, col)`,
stated at the image level. -/
theorem removeWatermark_at_rowcol (e : Engine) (img : RGBAImage) (row col : ℕ)
    (hrow : row < (imgConfig img).size.toNat) (hcol : col < (imgConfig img).size.toNat)
    (h0x : 0 ≤ (imgPosition img).minX + (col : ℤ))
    (h0y : 0 ≤ (imgPosition img).minY + (row : ℤ))
    (hxw : (imgPosition img).minX + (col : ℤ) < (img.width : ℤ))
    (hyh : (imgPosition img).minY + (row : ℤ) < (img.height : ℤ)) :
    (e.RemoveWatermark img).at ((imgPosition img).minX + (col : ℤ)).toNat
        ((imgPosition img).minY + (row : ℤ)).toNat =
      if (selectedMap e img).getD (row * (imgConfig img).size.toNat + col) 0 <
          AlphaThreshold then
        img.at ((imgPosition img).minX + (col : ℤ)).toNat
          ((imgPosition img).minY + (row : ℤ)).toNat
      else
        blendPixel ((selectedMap e img).getD (row * (imgConfig img).size.toNat + col) 0)
          (img.at ((imgPosition img).minX + (col : ℤ)).toNat
            ((imgPosition img).minY + (row : ℤ)).toNat) := by
  rw [removeWatermark_eq_runPairs]
  exact runPairs_at_target _ _ _ _ _ _ _ _ _ hrow hcol rfl rfl h0x h0y hxw hyh

/-! ### Facts about the synthetic composite image -/

theorem composite_width (e : Engine) (img : RGBAImage) :
    (compositeWatermark e img).width = img.width := rfl

theorem composite_height (e : Engine) (img : RGBAImage) :
    (compositeWatermark e img).height = img.height := rfl

theorem composite_selectedMap (e : Engine) (img : RGBAImage) :
    selectedMap e (compositeWatermark e img) = selectedMap e img := rfl

theorem composite_imgConfig (e : Engine) (img : RGBAImage) :
    imgConfig (compositeWatermark e img) = imgConfig img := rfl

theorem composite_imgPosition (e : Engine) (img : RGBAImage) :
    imgPosition (compositeWatermark e img) = imgPosition img := rfl

theorem composite_regionAlphaAt (e : Engine) (img : RGBAImage) (x y : ℕ) :
    regionAlphaAt e (compositeWatermark e img) x y = regionAlphaAt e img x y := rfl

theorem composite_at_inRegion (e : Engine) (img : RGBAImage) (x y : ℕ)
    (hx : x < img.width) (hy : y < img.height)
    (hr : (imgPosition img).minX ≤ (x : ℤ) ∧
        (x : ℤ) < (imgPosition img).minX + (imgConfig img).size ∧
        (imgPosition img).minY ≤ (y : ℤ) ∧
        (y : ℤ) < (imgPosition img).minY + (imgConfig img).size) :
    (compositeWatermark e img).at x y =
      ⟨roundU8 (regionAlphaAt e img x y * 255 +
          (1 - regionAlphaAt e img x y) * ((img.at x y).r : ℚ)),
       roundU8 (regionAlphaAt e img x y * 255 +
          (1 - regionAlphaAt e img x y) * ((img.at x y).g : ℚ)),
       roundU8 (regionAlphaAt e img x y * 255 +
          (1 - regionAlphaAt e img x y) * ((img.at x y).b : ℚ)),
       (img.at x y).a⟩ := by
  unfold compositeWatermark RGBAImage.at
  simp only
  rw [if_pos ⟨hx, hy⟩, if_pos hr]
  simp [hx, hy]

theorem composite_at_outRegion (e : Engine) (img : RGBAImage) (x y : ℕ)
    (hr : ¬((imgPosition img).minX ≤ (x : ℤ) ∧
        (x : ℤ) < (imgPosition img).minX + (imgConfig img).size ∧
        (imgPosition img).minY ≤ (y : ℤ) ∧
        (y : ℤ) < (imgPosition img).minY + (imgConfig img).size)) :
    (compositeWatermark e img).at x y = img.at x y := by
  unfold compositeWatermark RGBAImage.at
  simp only
  split
  · simp [hr]
  · rfl

theorem composite_at_a (e : Engine) (img : RGBAImage) (x y : ℕ) :
    ((compositeWatermark e img).at x y).a = (img.at x y).a := by
  unfold compositeWatermark RGBAImage.at
  simp only
  split
  · split <;> rfl
  · rfl

theorem getD_zero_mem_or (l : List ℚ) (n : ℕ) :
    l.getD n 0 ∈ l ∨ l.getD n 0 = 0 := by
  by_cases h : n < l.length
  · left
    rw [List.getD_eq_getElem _ _ h]
    exact List.getElem_mem ..
  · right
    exact List.getD_eq_default _ _ (by omega)

/-- `blendPixel` in closed form when the alpha needs no clamping. -/
theorem blendPixel_channels (α : ℚ) (p : RGBAPixel) (h : α ≤ MaxAlpha) :
    blendPixel α p =
      ⟨(⌊clamp (((p.r : ℚ) - α * LogoValue) / (1 - α)) 0 255⌋).toNat,
       (⌊clamp (((p.g : ℚ) - α * LogoValue) / (1 - α)) 0 255⌋).toNat,
       (⌊clamp (((p.b : ℚ) - α * LogoValue) / (1 - α)) 0 255⌋).toNat, p.a⟩ := by
  unfold blendPixel
  rw [if_neg (not_lt.mpr h)]

/-! ### The claims -/

/-- C3: `DetectConfig(width, height)` returns `{size 96, margin 64}` if and
only if both `width > 1024` and `height > 1024` (strict comparison), and
returns `{size 48, margin 32}` for every other pair of dimensions. -/
theorem detectConfig_spec (width height : ℤ) :
    (DetectConfig width height = ⟨96, 64⟩ ↔ (1024 < width ∧ 1024 < height)) ∧
    (¬(1024 < width ∧ 1024 < height) → DetectConfig width height = ⟨48, 32⟩) := by
  unfold DetectConfig
  by_cases h : 1024 < width ∧ 1024 < height
  · rw [if_pos h]
    exact ⟨⟨fun _ => h, fun _ => rfl⟩, fun hc => absurd h hc⟩
  · rw [if_neg h]
    refine ⟨⟨fun he => ?_, fun hc => absurd hc h⟩, fun _ => rfl⟩
    exact absurd (congrArg WatermarkConfig.size he) (by decide)

/-- Witness for C3: the large preset at `(2000, 2000)`; the small preset at
`(1024, 1024)`, `(1025, 800)` and `(800, 1025)`. -/
theorem detectConfig_spec_witness :
    DetectConfig 2000 2000 = ⟨96, 64⟩ ∧ DetectConfig 1024 1024 = ⟨48, 32⟩ ∧
    DetectConfig 1025 800 = ⟨48, 32⟩ ∧ DetectConfig 800 1025 = ⟨48, 32⟩ :=
  ⟨(detectConfig_spec 2000 2000).1.mpr (by decide),
   (detectConfig_spec 1024 1024).2 (by decide),
   (detectConfig_spec 1025 800).2 (by decide),
   (detectConfig_spec 800 1025).2 (by decide)⟩

/-- C4: `CalculatePosition` returns the rectangle with top-left corner
`(imgW - margin - size, imgH - margin - size)` and width = height = size,
with no clamping (coordinates may be negative), for every configuration
with a nonnegative size. -/
theorem calculatePosition_spec (imgWidth imgHeight : ℤ) (config : WatermarkConfig)
    (hsize : 0 ≤ config.size) :
    (CalculatePosition imgWidth imgHeight config).minX =
      imgWidth - config.margin - config.size ∧
    (CalculatePosition imgWidth imgHeight config).minY =
      imgHeight - config.margin - config.size ∧
    (CalculatePosition imgWidth imgHeight config).maxX =
      (CalculatePosition imgWidth imgHeight config).minX + config.size ∧
    (CalculatePosition imgWidth imgHeight config).maxY =
      (CalculatePosition imgWidth imgHeight config).minY + config.size := by
  rw [calculatePosition_eq _ _ _ hsize]
  refine ⟨rfl, rfl, ?_, ?_⟩ <;> simp only <;> omega

/-- Witness for C4: position `(720, 520)` for an 800×600 image with the
small preset, and `(1840, 1840)` for a 2000×2000 image with the large
preset. -/
theorem calculatePosition_spec_witness :
    (CalculatePosition 800 600 ⟨48, 32⟩).minX = 720 ∧
    (CalculatePosition 800 600 ⟨48, 32⟩).minY = 520 ∧
    (CalculatePosition 2000 2000 ⟨96, 64⟩).minX = 1840 ∧
    (CalculatePosition 2000 2000 ⟨96, 64⟩).minY = 1840 :=
  ⟨(calculatePosition_spec 800 600 ⟨48, 32⟩ (by decide)).1.trans (by decide),
   (calculatePosition_spec 800 600 ⟨48, 32⟩ (by decide)).2.1.trans (by decide),
   (calculatePosition_spec 2000 2000 ⟨96, 64⟩ (by decide)).1.trans (by decide),
   (calculatePosition_spec 2000 2000 ⟨96, 64⟩ (by decide)).2.1.trans (by decide)⟩

/-- C6: the output of `RemoveWatermark` has the input's dimensions, and
every pixel strictly outside the detected watermark rectangle is
bit-identical to the corresponding input pixel. -/
theorem removeWatermark_frame (e : Engine) (img : RGBAImage) :
    ((e.RemoveWatermark img).width = img.width ∧
      (e.RemoveWatermark img).height = img.height) ∧
    ∀ x y : ℕ, ¬((imgPosition img).minX ≤ (x : ℤ) ∧ (x : ℤ) < (imgPosition img).maxX ∧
        (imgPosition img).minY ≤ (y : ℤ) ∧ (y : ℤ) < (imgPosition img).maxY) →
      (e.RemoveWatermark img).at x y = img.at x y := by
  refine ⟨⟨removeWatermark_width e img, removeWatermark_height e img⟩, fun x y h => ?_⟩
  apply removeWatermark_at_outside
  rw [imgPosition_maxX, imgPosition_maxY] at h
  exact h

/-- Witness for C6: a 3×3 image lies entirely outside its (negative)
watermark rectangle, so pixel `(0, 0)` survives unchanged. -/
theorem removeWatermark_frame_witness :
    (Engine.RemoveWatermark ⟨[], []⟩ ⟨3, 3, fun _ _ => ⟨7, 8, 9, 255⟩⟩).width = 3 ∧
    (Engine.RemoveWatermark ⟨[], []⟩ ⟨3, 3, fun _ _ => ⟨7, 8, 9, 255⟩⟩).at 0 0 =
      RGBAImage.at ⟨3, 3, fun _ _ => ⟨7, 8, 9, 255⟩⟩ 0 0 :=
  ⟨(removeWatermark_frame ⟨[], []⟩ ⟨3, 3, fun _ _ => ⟨7, 8, 9, 255⟩⟩).1.1,
   (removeWatermark_frame ⟨[], []⟩ ⟨3, 3, fun _ _ => ⟨7, 8, 9, 255⟩⟩).2 0 0 (by decide)⟩

/-- C7: the transparency channel of every output pixel equals that of the
corresponding input pixel; only the color channels are ever modified. -/
theorem removeWatermark_preserves_alpha (e : Engine) (img : RGBAImage) (x y : ℕ) :
    ((e.RemoveWatermark img).at x y).a = (img.at x y).a := by
  rw [removeWatermark_eq_runPairs]
  exact runPairs_at_a ..

/-- C8: `RemoveWatermark` never mutates the caller's input image: the run
threads the source buffer through untouched, every write going to the
copy, so after the call the source equals its original value, pixel for
pixel. -/
theorem removeWatermark_no_mutation (e : Engine) (img : RGBAImage) :
    (RemoveWatermarkRun e img).src = img ∧
    ∀ x y : ℕ, ((RemoveWatermarkRun e img).src).at x y = img.at x y := by
  have h := removeWatermarkRun_src e img
  exact ⟨h, fun x y => by rw [h]⟩

/-- C9: the numeric-safety clamps never raise: the clamped alpha keeps the
reverse-blend denominator at least `1/100`, the blended channels are valid
8-bit values, and the whole blend maps valid images to valid images. -/
theorem removeWatermark_numeric_safety (e : Engine) (img : RGBAImage)
    (alpha : ℚ) (p : RGBAPixel) :
    1 / 100 ≤ 1 - (if alpha > MaxAlpha then MaxAlpha else alpha) ∧
    ((blendPixel alpha p).r ≤ 255 ∧ (blendPixel alpha p).g ≤ 255 ∧
      (blendPixel alpha p).b ≤ 255) ∧
    (img.Valid → (e.RemoveWatermark img).Valid) := by
  refine ⟨oneMinusAlpha_ge alpha, blendPixel_le_255 alpha p, fun hv => ?_⟩
  rw [removeWatermark_eq_runPairs]
  exact runPairs_valid _ _ _ _ _ _ _ hv _

/-- Witness for C9 at `alpha = 2`, an out-of-range alpha that gets clamped,
and a concrete valid 3×3 image. -/
theorem removeWatermark_numeric_safety_witness :
    1 / 100 ≤ 1 - (if (2 : ℚ) > MaxAlpha then MaxAlpha else 2) ∧
    (Engine.RemoveWatermark ⟨[], []⟩ ⟨3, 3, fun _ _ => ⟨7, 8, 9, 255⟩⟩).Valid :=
  ⟨(removeWatermark_numeric_safety ⟨[], []⟩ ⟨3, 3, fun _ _ => ⟨7, 8, 9, 255⟩⟩ 2
      ⟨0, 0, 0, 0⟩).1,
   (removeWatermark_numeric_safety ⟨[], []⟩ ⟨3, 3, fun _ _ => ⟨7, 8, 9, 255⟩⟩ 2
      ⟨0, 0, 0, 0⟩).2.2 (by decide)⟩

/-- C10: for every size other than 96 — including 0, negative values, 32
and 64 — `LoadReferenceImage` selects the embedded 48px asset, so its only
error outcome is a decode failure of that asset. -/
theorem loadReferenceImage_default (decode : List ℕ → Except String RGBAImage)
    (bg48PNG bg96PNG : List ℕ) (size : ℤ) (hsize : size ≠ 96) :
    LoadReferenceImage decode bg48PNG bg96PNG size = decode bg48PNG := by
  unfold LoadReferenceImage
  rw [if_neg hsize]

/-- Witness for C10 at sizes 0, −1, 32 and 64 with a decoder that always
succeeds: the result is the decoded 48px asset, not an error. -/
theorem loadReferenceImage_default_witness :
    LoadReferenceImage (fun _ => Except.ok ⟨1, 1, fun _ _ => zeroPixel⟩) [7] [9] 0 =
      Except.ok ⟨1, 1, fun _ _ => zeroPixel⟩ ∧
    LoadReferenceImage (fun _ => Except.ok ⟨1, 1, fun _ _ => zeroPixel⟩) [7] [9] (-1) =
      Except.ok ⟨1, 1, fun _ _ => zeroPixel⟩ ∧
    LoadReferenceImage (fun _ => Except.ok ⟨1, 1, fun _ _ => zeroPixel⟩) [7] [9] 32 =
      Except.ok ⟨1, 1, fun _ _ => zeroPixel⟩ ∧
    LoadReferenceImage (fun _ => Except.ok ⟨1, 1, fun _ _ => zeroPixel⟩) [7] [9] 64 =
      Except.ok ⟨1, 1, fun _ _ => zeroPixel⟩ :=
  ⟨loadReferenceImage_default _ [7] [9] 0 (by decide),
   loadReferenceImage_default _ [7] [9] (-1) (by decide),
   loadReferenceImage_default _ [7] [9] 32 (by decide),
   loadReferenceImage_default _ [7] [9] 64 (by decide)⟩

/-- C5: `CalculateAlphaMap` returns a flat row-major sequence with exactly
one entry per pixel (length = width·height), the entry for pixel `(x, y)`
being `max(R,G,B)/255`; all values lie in `[0,1]`, a pure black reference
yields the all-zero map and a pure white reference the all-one map. -/
theorem calculateAlphaMap_spec (img : RGBAImage) (hv : img.Valid) :
    (CalculateAlphaMap img).length = img.width * img.height ∧
    (∀ x, x < img.width → ∀ y, y < img.height →
      (CalculateAlphaMap img).getD (y * img.width + x) 0 =
        (↑(max (max (img.at x y).r (img.at x y).g) (img.at x y).b) : ℚ) / 255) ∧
    (∀ q ∈ CalculateAlphaMap img, 0 ≤ q ∧ q ≤ 1) ∧
    ((∀ x, x < img.width → ∀ y, y < img.height →
        (img.at x y).r = 0 ∧ (img.at x y).g = 0 ∧ (img.at x y).b = 0) →
      ∀ q ∈ CalculateAlphaMap img, q = 0) ∧
    ((∀ x, x < img.width → ∀ y, y < img.height →
        (img.at x y).r = 255 ∧ (img.at x y).g = 255 ∧ (img.at x y).b = 255) →
      ∀ q ∈ CalculateAlphaMap img, q = 1) := by
  refine ⟨calculateAlphaMap_length img, ?_, ?_, ?_, ?_⟩
  · intro x hx y hy
    rw [calculateAlphaMap_getD img x y hx hy]
    rfl
  · intro q hq
    obtain ⟨x, y, hx, hy, rfl⟩ := mem_calculateAlphaMap img q hq
    have hval := at_valid img hv x y
    exact ⟨pixelAlpha_nonneg _, pixelAlpha_le_one _ ⟨hval.1, hval.2.1, hval.2.2.1⟩⟩
  · intro hb q hq
    obtain ⟨x, y, hx, hy, rfl⟩ := mem_calculateAlphaMap img q hq
    obtain ⟨h1, h2, h3⟩ := hb x hx y hy
    unfold pixelAlpha
    rw [h1, h2, h3]
    norm_num
  · intro hb q hq
    obtain ⟨x, y, hx, hy, rfl⟩ := mem_calculateAlphaMap img q hq
    obtain ⟨h1, h2, h3⟩ := hb x hx y hy
    unfold pixelAlpha
    rw [h1, h2, h3]
    norm_num

/-- Witness for C5 on a 2×2 black image: four entries, and the entry of
pixel `(1, 1)` is zero. -/
theorem calculateAlphaMap_spec_witness :
    (CalculateAlphaMap ⟨2, 2, fun _ _ => ⟨0, 0, 0, 255⟩⟩).length = 2 * 2 ∧
    (CalculateAlphaMap ⟨2, 2, fun _ _ => ⟨0, 0, 0, 255⟩⟩).getD (1 * 2 + 1) 0 = 0 :=
  ⟨(calculateAlphaMap_spec ⟨2, 2, fun _ _ => ⟨0, 0, 0, 255⟩⟩ (by decide)).1,
   ((calculateAlphaMap_spec ⟨2, 2, fun _ _ => ⟨0, 0, 0, 255⟩⟩ (by decide)).2.1
       1 (by decide) 1 (by decide)).trans (by with_unfolding_all decide)⟩

/-- C1: for every watermark coordinate `(row, col)` whose image pixel is in
bounds, `RemoveWatermark` sets the pixel's R, G and B channels to
`blendPixel` — `clamp((watermarked - a*255)/(1 - a), 0, 255)` truncated to
8 bits, with `a = min(alpha, 0.99)` — when the alpha-map value is at least
`AlphaThreshold`, and leaves the copied pixel unchanged when the alpha is
below the threshold; out-of-bounds coordinates are skipped without error
(see the frame theorem for the untouched remainder of the image). -/
theorem removeWatermark_pixel_formula (e : Engine) (img : RGBAImage) (row col : ℕ)
    (hrow : row < (imgConfig img).size.toNat)
    (hcol : col < (imgConfig img).size.toNat)
    (h0x : 0 ≤ (imgPosition img).minX + (col : ℤ))
    (h0y : 0 ≤ (imgPosition img).minY + (row : ℤ))
    (hxw : (imgPosition img).minX + (col : ℤ) < (img.width : ℤ))
    (hyh : (imgPosition img).minY + (row : ℤ) < (img.height : ℤ)) :
    (AlphaThreshold ≤ (selectedMap e img).getD (row * (imgConfig img).size.toNat + col) 0 →
      (e.RemoveWatermark img).at ((imgPosition img).minX + (col : ℤ)).toNat
          ((imgPosition img).minY + (row : ℤ)).toNat =
        blendPixel ((selectedMap e img).getD (row * (imgConfig img).size.toNat + col) 0)
          (img.at ((imgPosition img).minX + (col : ℤ)).toNat
            ((imgPosition img).minY + (row : ℤ)).toNat)) ∧
    ((selectedMap e img).getD (row * (imgConfig img).size.toNat + col) 0 < AlphaThreshold →
      (e.RemoveWatermark img).at ((imgPosition img).minX + (col : ℤ)).toNat
          ((imgPosition img).minY + (row : ℤ)).toNat =
        img.at ((imgPosition img).minX + (col : ℤ)).toNat
          ((imgPosition img).minY + (row : ℤ)).toNat) := by
  have h := removeWatermark_at_rowcol e img row col hrow hcol h0x h0y hxw hyh
  constructor
  · intro hthr
    rw [h, if_neg (not_lt.mpr hthr)]
  · intro hthr
    rw [h, if_pos hthr]

/-- Witness for C1: on the 100×100 sample image the watermark sits at
`(20, 20)`; coordinate `(0, 0)` has alpha `1/2 ≥ AlphaThreshold`, so the
pixel is reverse-blended. -/
theorem removeWatermark_pixel_formula_witness :
    (sampleEngine.RemoveWatermark sampleImage).at
        ((imgPosition sampleImage).minX + ((0 : ℕ) : ℤ)).toNat
        ((imgPosition sampleImage).minY + ((0 : ℕ) : ℤ)).toNat =
      blendPixel ((selectedMap sampleEngine sampleImage).getD
          (0 * (imgConfig sampleImage).size.toNat + 0) 0)
        (sampleImage.at ((imgPosition sampleImage).minX + ((0 : ℕ) : ℤ)).toNat
          ((imgPosition sampleImage).minY + ((0 : ℕ) : ℤ)).toNat) :=
  (removeWatermark_pixel_formula sampleEngine sampleImage 0 0
      (by decide) (by decide) (by decide) (by decide) (by decide) (by decide)).1
    (by with_unfolding_all decide)

/-- C2: round-trip law. For every valid image, forward alpha-compositing
the engine's selected alpha map over the detected watermark rectangle
(`watermarked = alpha*255 + (1-alpha)*original`, rounded to 8 bits) and
then running `RemoveWatermark` recovers every pixel within the rounding
tolerance `roundTol` of that pixel's alpha — exactly the deviation 8-bit
rounding can introduce — provided the alpha map stays within the engine's
own processing range `[0, MaxAlpha]`; transparency returns bit-exactly. -/
theorem removeWatermark_roundtrip (e : Engine) (img : RGBAImage) (hv : img.Valid)
    (hmap : ∀ q ∈ selectedMap e img, 0 ≤ q ∧ q ≤ MaxAlpha)
    (x y : ℕ) (hx : x < img.width) (hy : y < img.height) :
    |(((e.RemoveWatermark (compositeWatermark e img)).at x y).r : ℤ) -
        (((img.at x y).r : ℤ))| ≤ roundTol (regionAlpha e img x y) ∧
    |(((e.RemoveWatermark (compositeWatermark e img)).at x y).g : ℤ) -
        (((img.at x y).g : ℤ))| ≤ roundTol (regionAlpha e img x y) ∧
    |(((e.RemoveWatermark (compositeWatermark e img)).at x y).b : ℤ) -
        (((img.at x y).b : ℤ))| ≤ roundTol (regionAlpha e img x y) ∧
    ((e.RemoveWatermark (compositeWatermark e img)).at x y).a = (img.at x y).a := by
  have hαdef : regionAlphaAt e img x y = (selectedMap e img).getD
      (((y : ℤ) - (imgPosition img).minY).toNat * (imgConfig img).size.toNat +
        ((x : ℤ) - (imgPosition img).minX).toNat) 0 := rfl
  have hα : 0 ≤ regionAlphaAt e img x y ∧ regionAlphaAt e img x y ≤ MaxAlpha := by
    rw [hαdef]
    rcases getD_zero_mem_or (selectedMap e img)
        (((y : ℤ) - (imgPosition img).minY).toNat * (imgConfig img).size.toNat +
          ((x : ℤ) - (imgPosition img).minX).toNat) with hm | hz
    · exact hmap _ hm
    · rw [hz]
      exact ⟨le_refl 0, by unfold MaxAlpha; norm_num⟩
  have hα1 : regionAlphaAt e img x y < 1 :=
    lt_of_le_of_lt hα.2 (by unfold MaxAlpha; norm_num)
  have hviz := at_valid img hv x y
  have hxZ : (x : ℤ) < (img.width : ℤ) := by exact_mod_cast hx
  have hyZ : (y : ℤ) < (img.height : ℤ) := by exact_mod_cast hy
  have hszt := imgConfig_size_toNat img
  by_cases hr : (imgPosition img).minX ≤ (x : ℤ) ∧
      (x : ℤ) < (imgPosition img).minX + (imgConfig img).size ∧
      (imgPosition img).minY ≤ (y : ℤ) ∧
      (y : ℤ) < (imgPosition img).minY + (imgConfig img).size
  · have hra : regionAlpha e img x y = regionAlphaAt e img x y := by
      unfold regionAlpha
      rw [if_pos hr]
    obtain ⟨hr1, hr2, hr3, hr4⟩ := hr
    have hmain := removeWatermark_at_rowcol e (compositeWatermark e img)
      (((y : ℤ) - (imgPosition img).minY).toNat)
      (((x : ℤ) - (imgPosition img).minX).toNat)
      (by simp only [composite_imgConfig, composite_imgPosition]; omega)
      (by simp only [composite_imgConfig, composite_imgPosition]; omega)
      (by simp only [composite_imgPosition]; omega)
      (by simp only [composite_imgPosition]; omega)
      (by simp only [composite_imgPosition, composite_width]; omega)
      (by simp only [composite_imgPosition, composite_height]; omega)
    simp only [composite_imgConfig, composite_imgPosition, composite_selectedMap,
      composite_width, composite_height] at hmain
    have hIx : ((imgPosition img).minX +
        ((((x : ℤ) - (imgPosition img).minX).toNat : ℕ) : ℤ)).toNat = x := by omega
    have hIy : ((imgPosition img).minY +
        ((((y : ℤ) - (imgPosition img).minY).toNat : ℕ) : ℤ)).toNat = y := by omega
    rw [hIx, hIy, ← hαdef] at hmain
    have hcomp := composite_at_inRegion e img x y hx hy ⟨hr1, hr2, hr3, hr4⟩
    rw [hcomp] at hmain
    rw [hra]
    by_cases hthr : regionAlphaAt e img x y < AlphaThreshold
    · rw [if_pos hthr] at hmain
      rw [hmain]
      refine ⟨?_, ?_, ?_, rfl⟩
      · exact le_trans (skip_channel_roundtrip _ hviz.1 _ hα.1 hthr)
          (roundTol_ge_one _ hα1)
      · exact le_trans (skip_channel_roundtrip _ hviz.2.1 _ hα.1 hthr)
          (roundTol_ge_one _ hα1)
      · exact le_trans (skip_channel_roundtrip _ hviz.2.2.1 _ hα.1 hthr)
          (roundTol_ge_one _ hα1)
    · rw [if_neg hthr] at hmain
      rw [hmain, blendPixel_channels _ _ hα.2]
      refine ⟨?_, ?_, ?_, rfl⟩
      · exact blend_channel_roundtrip _ hviz.1 _ hα.1 hα.2
      · exact blend_channel_roundtrip _ hviz.2.1 _ hα.1 hα.2
      · exact blend_channel_roundtrip _ hviz.2.2.1 _ hα.1 hα.2
  · have hra : regionAlpha e img x y = 0 := by
      unfold regionAlpha
      rw [if_neg hr]
    have hout := removeWatermark_at_outside e (compositeWatermark e img) x y
      (by simp only [composite_imgPosition, composite_imgConfig]; exact hr)
    rw [composite_at_outRegion e img x y hr] at hout
    rw [hout, hra]
    have h1 : 1 ≤ roundTol 0 := roundTol_ge_one 0 (by norm_num)
    refine ⟨?_, ?_, ?_, rfl⟩ <;> rw [sub_self, abs_zero] <;> omega

set_option maxRecDepth 4000000 in
/-- Witness for C2 at pixel `(20, 20)` of the 100×100 sample image — the
watermark coordinate carrying alpha `1/2` — and its transparency channel. -/
theorem removeWatermark_roundtrip_witness :
    |(((sampleEngine.RemoveWatermark (compositeWatermark sampleEngine sampleImage)).at
          20 20).r : ℤ) - ((sampleImage.at 20 20).r : ℤ)| ≤
      roundTol (regionAlpha sampleEngine sampleImage 20 20) ∧
    ((sampleEngine.RemoveWatermark (compositeWatermark sampleEngine sampleImage)).at
        20 20).a = (sampleImage.at 20 20).a :=
  ⟨(removeWatermark_roundtrip sampleEngine sampleImage (by decide)
      (by with_unfolding_all decide) 20 20 (by decide) (by decide)).1,
   (removeWatermark_roundtrip sampleEngine sampleImage (by decide)
      (by with_unfolding_all decide) 20 20 (by decide) (by decide)).2.2.2⟩

end watermark
